import Mathlib

/-!
Verification of the neutrosophic-number arithmetic kernel and the one-round
ZKP protocol built on it.  The Rust sources are embedded shallowly:

* `BigInt` becomes `ℤ`; `BigUint` becomes `ℕ`.
* `BigInt::modpow` rounds like `mod_floor` (the result takes the sign of the
  modulus), and panics when the exponent is negative or the modulus is zero;
  it is embedded as an `Option`-valued function using `Int.fmod`, with `none`
  standing for the panic.
* The thread-local random generator is embedded as an explicit stream of raw
  natural-number draws together with a position, threaded through every
  sampling call.
-/

/-- A neutrosophic number `a + bI` with arbitrary-precision integer
components, as in `neutrosophic_numbers.rs`. -/
structure NeutrosophicNumber where
  a : ℤ
  b : ℤ
deriving DecidableEq

/-- Embedding of `BigInt::modpow`: `base^exponent` reduced with floor-rounding
modulo `modulus` (the result takes the sign of the modulus).  The primitive
panics when the exponent is negative or the modulus is zero; the panic is
embedded as `none`. -/
def modpow (base exponent modulus : ℤ) : Option ℤ :=
  if 0 ≤ exponent ∧ modulus ≠ 0 then
    some ((base ^ exponent.toNat).fmod modulus)
  else
    none

/-- Embedding of `NeutrosophicNumber::pow_mod`: `term1 = g1.modpow(x1, p1)`,
`term2_base = (g1+g2).modpow(x1+x2, p1+p2)`, result
`(term1, term2_base - term1)`; a panic in either `modpow` call aborts. -/
def NeutrosophicNumber.pow_mod (g exp modulus : NeutrosophicNumber) :
    Option NeutrosophicNumber :=
  match modpow g.a exp.a modulus.a with
  | none => none
  | some term1 =>
    match modpow (g.a + g.b) (exp.a + exp.b) (modulus.a + modulus.b) with
    | none => none
    | some term2_base => some ⟨term1, term2_base - term1⟩

/-- Embedding of `impl Add for NeutrosophicNumber`:
`(a+bI) + (c+dI) = (a+c) + (b+d)I`. -/
def NeutrosophicNumber.add (x y : NeutrosophicNumber) : NeutrosophicNumber :=
  ⟨x.a + y.a, x.b + y.b⟩

/-- Embedding of `impl Mul for NeutrosophicNumber`:
`(a+bI) * (c+dI) = ac + (ad+bc+bd)I`. -/
def NeutrosophicNumber.mul (x y : NeutrosophicNumber) : NeutrosophicNumber :=
  ⟨x.a * y.a, x.a * y.b + x.b * y.a + x.b * y.b⟩

/-- Embedding of `NeutrosophicNumber::is_positive`:
`a > 0 && (a + b) > 0`. -/
def NeutrosophicNumber.is_positive (n : NeutrosophicNumber) : Bool :=
  decide (0 < n.a) && decide (0 < n.a + n.b)

/-- The real-part projection `a + bI ↦ a`. -/
def s1 (n : NeutrosophicNumber) : ℤ := n.a

/-- The component-sum projection `a + bI ↦ a + b`. -/
def s2 (n : NeutrosophicNumber) : ℤ := n.a + n.b

/-- The thread-local random generator, embedded as the stream of raw
natural-number draws it will produce, plus the current position. -/
structure RandSource where
  draws : ℕ → ℕ
  idx : ℕ

/-- Embedding of `RandBigInt::gen_biguint`: a uniformly sampled non-negative
integer below `2 ^ bit_size`, consuming one draw from the source. -/
def gen_biguint (rng : RandSource) (bit_size : ℕ) : ℕ × RandSource :=
  (rng.draws rng.idx % 2 ^ bit_size, ⟨rng.draws, rng.idx + 1⟩)

/-- Embedding of `BigUint::to_bigint`, which always succeeds. -/
def to_bigint (n : ℕ) : Option ℤ :=
  some (n : ℤ)

/-- Embedding of `generate_random_neutrosophic`: both components are drawn by
`gen_biguint` and converted with `to_bigint().unwrap()`; a failing `unwrap`
would be a panic, embedded as `none`. -/
def generate_random_neutrosophic (rng : RandSource) (bit_size : ℕ) :
    Option (NeutrosophicNumber × RandSource) :=
  let av := gen_biguint rng bit_size
  match to_bigint av.1 with
  | none => none
  | some a_val =>
    let bv := gen_biguint av.2 bit_size
    match to_bigint bv.1 with
    | none => none
    | some b_val => some (⟨a_val, b_val⟩, bv.2)

/-- Embedding of `neutrosophic_one_round_zkp_protocol`: draw `y` at 2048 bits
from the thread-local generator, compute `c = g^y mod p`,
`r_peggy = c^x mod p`, `r_victor = b^y mod p`, and return whether the two
coincide.  A panic anywhere is embedded as `none`. -/
def neutrosophic_one_round_zkp_protocol (rng : RandSource)
    (g p b x : NeutrosophicNumber) : Option (Bool × RandSource) :=
  match generate_random_neutrosophic rng 2048 with
  | none => none
  | some (y, rng2) =>
    match g.pow_mod y p with
    | none => none
    | some c =>
      match c.pow_mod x p with
      | none => none
      | some r_peggy =>
        match b.pow_mod y p with
        | none => none
        | some r_victor => some (decide (r_peggy = r_victor), rng2)

/-- Embedding of the `main` sequence without its printing: generate `p`, `g`
and `x_secret`, abort unless `p` and `g` are positive, compute the public key
`b`, run the protocol once with the true secret, generate a fake secret and
run the protocol again with it, returning the two verification outcomes. -/
def param_gen_then_protocol (rng : RandSource) (bit_length_params : ℕ) :
    Option (Bool × Bool) :=
  match generate_random_neutrosophic rng bit_length_params with
  | none => none
  | some (p, rng1) =>
    match generate_random_neutrosophic rng1 bit_length_params with
    | none => none
    | some (g, rng2) =>
      match generate_random_neutrosophic rng2 bit_length_params with
      | none => none
      | some (x_secret, rng3) =>
        if p.is_positive && g.is_positive then
          match g.pow_mod x_secret p with
          | none => none
          | some b =>
            match neutrosophic_one_round_zkp_protocol rng3 g p b x_secret with
            | none => none
            | some (result_known_x, rng4) =>
              match generate_random_neutrosophic rng4 bit_length_params with
              | none => none
              | some (x_fake, rng5) =>
                match neutrosophic_one_round_zkp_protocol rng5 g p b x_fake with
                | none => none
                | some (result_fake_x, _) => some (result_known_x, result_fake_x)
        else
          none

/-- The split closed form that §4.1 of the design prescribes for `pow_mod`,
written from the spec text: real component `g.a ^ x.a mod p.a`, indeterminate
component `((g.a+g.b) ^ (x.a+x.b) mod (p.a+p.b)) - (g.a ^ x.a mod p.a)`,
where `mod` carries the floor-rounding semantics of the underlying
modular-exponentiation routine. -/
def pow_mod_spec (g x p : NeutrosophicNumber) : NeutrosophicNumber :=
  ⟨(g.a ^ x.a.toNat).fmod p.a,
    ((g.a + g.b) ^ (x.a + x.b).toNat).fmod (p.a + p.b) -
      (g.a ^ x.a.toNat).fmod p.a⟩

/-- Floor division is invariant under negating both operands. -/
theorem fdiv_neg_neg : ∀ a n : ℤ, Int.fdiv (-a) (-n) = Int.fdiv a n
  | Int.ofNat 0, Int.ofNat 0 => rfl
  | Int.ofNat 0, Int.ofNat (k + 1) => rfl
  | Int.ofNat 0, Int.negSucc k => rfl
  | Int.ofNat (m + 1), Int.ofNat 0 => by
      show Int.fdiv (Int.negSucc m) 0 = Int.fdiv (Int.ofNat (m + 1)) 0
      rw [Int.fdiv_zero, Int.fdiv_zero]
  | Int.ofNat (m + 1), Int.ofNat (k + 1) => rfl
  | Int.ofNat (m + 1), Int.negSucc k => rfl
  | Int.negSucc m, Int.ofNat 0 => by
      show Int.fdiv (Int.ofNat (m + 1)) 0 = Int.fdiv (Int.negSucc m) 0
      rw [Int.fdiv_zero, Int.fdiv_zero]
  | Int.negSucc m, Int.ofNat (k + 1) => rfl
  | Int.negSucc m, Int.negSucc k => rfl

/-- Floor modulus is odd: negating both operands negates the result. -/
theorem fmod_neg_neg (a n : ℤ) : (-a).fmod (-n) = -(a.fmod n) := by
  rw [Int.fmod_def, Int.fmod_def, fdiv_neg_neg]
  ring

/-- Floor modulus reduces to a value congruent to the dividend. -/
theorem fmod_modeq (a n : ℤ) : a.fmod n ≡ a [ZMOD n] :=
  Int.modEq_iff_dvd.mpr ⟨a.fdiv n, by rw [Int.fmod_def]; ring⟩

/-- Congruent integers have equal floor modulus, nonnegative-modulus case. -/
theorem fmod_congr_of_nonneg {n a c : ℤ} (hn : 0 ≤ n) (h : a ≡ c [ZMOD n]) :
    a.fmod n = c.fmod n := by
  rw [Int.fmod_eq_emod _ hn, Int.fmod_eq_emod _ hn]
  exact h

/-- Congruent integers have equal floor modulus. -/
theorem fmod_congr {n a c : ℤ} (h : a ≡ c [ZMOD n]) : a.fmod n = c.fmod n := by
  rcases le_or_lt 0 n with hn | hn
  · exact fmod_congr_of_nonneg hn h
  · have hd : n ∣ c - a := Int.modEq_iff_dvd.mp h
    have hd2 : -n ∣ -c - -a := by
      have h3 : -c - -a = -(c - a) := by ring
      rw [h3]
      exact neg_dvd.mpr (dvd_neg.mpr hd)
    have h4 : (-a).fmod (-n) = (-c).fmod (-n) :=
      fmod_congr_of_nonneg (by omega) (Int.modEq_iff_dvd.mpr hd2)
    rw [fmod_neg_neg, fmod_neg_neg] at h4
    omega

/-- Raising a floor-reduced power to a further power and reducing again agrees
with reducing the combined power. -/
theorem fmod_pow_fmod (a n : ℤ) (j k : ℕ) :
    (((a ^ j).fmod n) ^ k).fmod n = (a ^ (j * k)).fmod n := by
  have h : ((a ^ j).fmod n) ^ k ≡ (a ^ j) ^ k [ZMOD n] :=
    (fmod_modeq (a ^ j) n).pow k
  rw [fmod_congr h, ← pow_mul]

/-- When the exponents are admissible and both moduli are non-zero, `pow_mod`
returns exactly the split closed form. -/
theorem pow_mod_eq_some (g x p : NeutrosophicNumber) (hxa : 0 ≤ x.a)
    (hxs : 0 ≤ x.a + x.b) (hpa : p.a ≠ 0) (hps : p.a + p.b ≠ 0) :
    g.pow_mod x p = some (pow_mod_spec g x p) := by
  have h1 : modpow g.a x.a p.a = some ((g.a ^ x.a.toNat).fmod p.a) := by
    simp [modpow, hxa, hpa]
  have h2 : modpow (g.a + g.b) (x.a + x.b) (p.a + p.b) =
      some (((g.a + g.b) ^ (x.a + x.b).toNat).fmod (p.a + p.b)) := by
    simp [modpow, hxs, hps]
  unfold NeutrosophicNumber.pow_mod
  rw [h1, h2]
  rfl

/-- The exchange identity behind protocol completeness: the two responses
`(g^y)^x` and `(g^x)^y` agree componentwise under `pow_mod`. -/
theorem pow_mod_exchange (g p x y bb cc : NeutrosophicNumber)
    (hxa : 0 ≤ x.a) (hxs : 0 ≤ x.a + x.b) (hya : 0 ≤ y.a) (hys : 0 ≤ y.a + y.b)
    (hpa : p.a ≠ 0) (hps : p.a + p.b ≠ 0)
    (hb : g.pow_mod x p = some bb) (hc : g.pow_mod y p = some cc) :
    cc.pow_mod x p = bb.pow_mod y p := by
  rw [pow_mod_eq_some g x p hxa hxs hpa hps] at hb
  rw [pow_mod_eq_some g y p hya hys hpa hps] at hc
  obtain rfl : pow_mod_spec g x p = bb := Option.some.inj hb
  obtain rfl : pow_mod_spec g y p = cc := Option.some.inj hc
  rw [pow_mod_eq_some (pow_mod_spec g y p) x p hxa hxs hpa hps,
    pow_mod_eq_some (pow_mod_spec g x p) y p hya hys hpa hps]
  have e1 : ∀ A S : ℤ, A + (S - A) = S := by intro A S; ring
  have h1 : (((g.a ^ y.a.toNat).fmod p.a) ^ x.a.toNat).fmod p.a =
      (((g.a ^ x.a.toNat).fmod p.a) ^ y.a.toNat).fmod p.a := by
    rw [fmod_pow_fmod, fmod_pow_fmod, Nat.mul_comm]
  have h2 : ((((g.a + g.b) ^ (y.a + y.b).toNat).fmod (p.a + p.b)) ^
        (x.a + x.b).toNat).fmod (p.a + p.b) =
      ((((g.a + g.b) ^ (x.a + x.b).toNat).fmod (p.a + p.b)) ^
        (y.a + y.b).toNat).fmod (p.a + p.b) := by
    rw [fmod_pow_fmod, fmod_pow_fmod, Nat.mul_comm]
  simp only [pow_mod_spec, e1]
  rw [h1, h2]

/-- The random generator always succeeds, consuming two draws. -/
theorem generate_random_eq (rng : RandSource) (bits : ℕ) :
    generate_random_neutrosophic rng bits =
      some (⟨((rng.draws rng.idx % 2 ^ bits : ℕ) : ℤ),
        ((rng.draws (rng.idx + 1) % 2 ^ bits : ℕ) : ℤ)⟩,
        ⟨rng.draws, rng.idx + 2⟩) := rfl

/-- The protocol run reports success whenever the tested secret is the one
that produced the public value `b`, whatever challenge the source yields. -/
theorem protocol_true_of_gen (g p b x y : NeutrosophicNumber)
    (rng rng2 : RandSource)
    (hgen : generate_random_neutrosophic rng 2048 = some (y, rng2))
    (hya : 0 ≤ y.a) (hys : 0 ≤ y.a + y.b)
    (hxa : 0 ≤ x.a) (hxs : 0 ≤ x.a + x.b) (hpa : p.a ≠ 0)
    (hps : p.a + p.b ≠ 0) (hb : g.pow_mod x p = some b) :
    neutrosophic_one_round_zkp_protocol rng g p b x = some (true, rng2) := by
  have hgy := pow_mod_eq_some g y p hya hys hpa hps
  have hcx := pow_mod_eq_some (pow_mod_spec g y p) x p hxa hxs hpa hps
  have hby := pow_mod_eq_some b y p hya hys hpa hps
  have hex := pow_mod_exchange g p x y b (pow_mod_spec g y p)
    hxa hxs hya hys hpa hps hb hgy
  rw [hcx, hby] at hex
  have heq := Option.some.inj hex
  simp [neutrosophic_one_round_zkp_protocol, hgen, hgy, hcx, hby, heq]

/-- Claim C1: for admissible exponents and non-degenerate moduli, `pow_mod`
computes exactly the split closed form of §4.1; on the literal test vector,
`pow_mod(2+1I, 3+0I, 5+0I) = 3 + (-1)I`. -/
theorem pow_mod_closed_form (g x p : NeutrosophicNumber)
    (hxa : 0 ≤ x.a) (hxb : 0 ≤ x.b) (hpa : p.a ≠ 0) (hps : p.a + p.b ≠ 0) :
    g.pow_mod x p = some (pow_mod_spec g x p) ∧
    NeutrosophicNumber.pow_mod ⟨2, 1⟩ ⟨3, 0⟩ ⟨5, 0⟩ = some ⟨3, -1⟩ :=
  ⟨pow_mod_eq_some g x p hxa (by omega) hpa hps, by decide⟩

/-- Witness for C1 at `g = 2+1I`, `x = 3+0I`, `p = 5+0I`. -/
theorem pow_mod_closed_form_witness :
    NeutrosophicNumber.pow_mod ⟨2, 1⟩ ⟨3, 0⟩ ⟨5, 0⟩ =
      some (pow_mod_spec ⟨2, 1⟩ ⟨3, 0⟩ ⟨5, 0⟩) ∧
    NeutrosophicNumber.pow_mod ⟨2, 1⟩ ⟨3, 0⟩ ⟨5, 0⟩ = some ⟨3, -1⟩ :=
  pow_mod_closed_form ⟨2, 1⟩ ⟨3, 0⟩ ⟨5, 0⟩ (by decide) (by decide) (by decide)
    (by decide)

/-- Claim C2: protocol completeness.  With `b = g^x mod p` and
`c = g^y mod p`, the prover response `c^x mod p` equals the verifier check
`b^y mod p`, and the one-round protocol run reports success for every state
of the randomness source. -/
theorem protocol_completeness (g p x y b c : NeutrosophicNumber)
    (rng : RandSource)
    (hxa : 0 ≤ x.a) (hxb : 0 ≤ x.b) (hya : 0 ≤ y.a) (hyb : 0 ≤ y.b)
    (hpa : p.a ≠ 0) (hps : p.a + p.b ≠ 0)
    (hb : g.pow_mod x p = some b) (hc : g.pow_mod y p = some c) :
    c.pow_mod x p = b.pow_mod y p ∧
    Option.map Prod.fst (neutrosophic_one_round_zkp_protocol rng g p b x) =
      some true := by
  refine ⟨pow_mod_exchange g p x y b c hxa (by omega) hya (by omega)
    hpa hps hb hc, ?_⟩
  rw [protocol_true_of_gen g p b x _ rng _ (generate_random_eq rng 2048)
    (Int.natCast_nonneg _)
    (add_nonneg (Int.natCast_nonneg _) (Int.natCast_nonneg _))
    hxa (by omega) hpa hps hb]
  rfl

/-- Witness for C2 at `g = 2+1I`, `p = 5+0I`, `x = 3+0I`, `y = 1+0I`, with
`b = 3+(-1)I`, `c = 2+1I` and a source whose raw draws are all `1`. -/
theorem protocol_completeness_witness :
    NeutrosophicNumber.pow_mod ⟨2, 1⟩ ⟨3, 0⟩ ⟨5, 0⟩ =
      NeutrosophicNumber.pow_mod ⟨3, -1⟩ ⟨1, 0⟩ ⟨5, 0⟩ ∧
    Option.map Prod.fst
      (neutrosophic_one_round_zkp_protocol ⟨fun _ => 1, 0⟩ ⟨2, 1⟩ ⟨5, 0⟩
        ⟨3, -1⟩ ⟨3, 0⟩) = some true :=
  protocol_completeness ⟨2, 1⟩ ⟨5, 0⟩ ⟨3, 0⟩ ⟨1, 0⟩ ⟨3, -1⟩ ⟨2, 1⟩
    ⟨fun _ => 1, 0⟩ (by decide) (by decide) (by decide) (by decide)
    (by decide) (by decide) (by decide) (by decide)

/-- Claim C4: the projections `s1(n) = n.a` and `s2(n) = n.a + n.b` are
simultaneous homomorphisms for addition, multiplication and `pow_mod`: every
operation reduces to two independent ordinary integer computations. -/
theorem projections_homomorphic (x y g p e r : NeutrosophicNumber)
    (hea : 0 ≤ e.a) (heb : 0 ≤ e.b) (hpa : p.a ≠ 0) (hps : p.a + p.b ≠ 0)
    (hr : g.pow_mod e p = some r) :
    s1 (x.add y) = s1 x + s1 y ∧ s2 (x.add y) = s2 x + s2 y ∧
    s1 (x.mul y) = s1 x * s1 y ∧ s2 (x.mul y) = s2 x * s2 y ∧
    s1 r = ((s1 g) ^ (s1 e).toNat).fmod (s1 p) ∧
    s2 r = ((s2 g) ^ (s2 e).toNat).fmod (s2 p) := by
  rw [pow_mod_eq_some g e p hea (by omega) hpa hps] at hr
  obtain rfl : pow_mod_spec g e p = r := Option.some.inj hr
  refine ⟨rfl, ?_, rfl, ?_, rfl, ?_⟩
  · simp only [s2, NeutrosophicNumber.add]
    ring
  · simp only [s2, NeutrosophicNumber.mul]
    ring
  · simp only [s2, pow_mod_spec]
    ring

/-- Witness for C4 at `x = 1+2I`, `y = 3+4I`, `g = 2+1I`, `p = 5+0I`,
`e = 3+0I`, `r = 3+(-1)I`. -/
theorem projections_homomorphic_witness :
    s1 (NeutrosophicNumber.add ⟨1, 2⟩ ⟨3, 4⟩) = s1 ⟨1, 2⟩ + s1 ⟨3, 4⟩ ∧
    s2 (NeutrosophicNumber.add ⟨1, 2⟩ ⟨3, 4⟩) = s2 ⟨1, 2⟩ + s2 ⟨3, 4⟩ ∧
    s1 (NeutrosophicNumber.mul ⟨1, 2⟩ ⟨3, 4⟩) = s1 ⟨1, 2⟩ * s1 ⟨3, 4⟩ ∧
    s2 (NeutrosophicNumber.mul ⟨1, 2⟩ ⟨3, 4⟩) = s2 ⟨1, 2⟩ * s2 ⟨3, 4⟩ ∧
    s1 ⟨3, -1⟩ = ((s1 ⟨2, 1⟩) ^ (s1 ⟨3, 0⟩).toNat).fmod (s1 ⟨5, 0⟩) ∧
    s2 ⟨3, -1⟩ = ((s2 ⟨2, 1⟩) ^ (s2 ⟨3, 0⟩).toNat).fmod (s2 ⟨5, 0⟩) :=
  projections_homomorphic ⟨1, 2⟩ ⟨3, 4⟩ ⟨2, 1⟩ ⟨5, 0⟩ ⟨3, 0⟩ ⟨3, -1⟩
    (by decide) (by decide) (by decide) (by decide) (by decide)

/-- Claim C5: given a fixed randomness source (same stream of draws, same
position), the full parameter-generation-then-protocol sequence yields
identical results; the run is a pure function of the injected source. -/
theorem run_deterministic (f₁ f₂ : ℕ → ℕ) (i₁ i₂ bits : ℕ)
    (hdraws : ∀ k, f₁ k = f₂ k) (hidx : i₁ = i₂) :
    param_gen_then_protocol ⟨f₁, i₁⟩ bits = param_gen_then_protocol ⟨f₂, i₂⟩ bits := by
  have hf : f₁ = f₂ := funext hdraws
  subst hf
  subst hidx
  rfl

/-- Witness for C5: two sources with pointwise-equal streams. -/
theorem run_deterministic_witness :
    param_gen_then_protocol ⟨fun _ => 0, 0⟩ 4 =
      param_gen_then_protocol ⟨fun k => 0 * k, 0⟩ 4 :=
  run_deterministic (fun _ => 0) (fun k => 0 * k) 0 0 4
    (fun k => (Nat.zero_mul k).symm) rfl

/-- Claim C9: for any source and positive bit size, the generator returns
normally and both components lie in `[0, 2 ^ bit_size)`. -/
theorem generate_random_in_range (rng : RandSource) (bit_size : ℕ)
    (r : NeutrosophicNumber) (rng2 : RandSource) (hbits : 0 < bit_size)
    (hgen : generate_random_neutrosophic rng bit_size = some (r, rng2)) :
    (generate_random_neutrosophic rng bit_size).isSome = true ∧
    0 ≤ r.a ∧ r.a < 2 ^ bit_size ∧ 0 ≤ r.b ∧ r.b < 2 ^ bit_size := by
  rw [generate_random_eq rng bit_size] at hgen
  have h := Option.some.inj hgen
  have hr : (⟨((rng.draws rng.idx % 2 ^ bit_size : ℕ) : ℤ),
      ((rng.draws (rng.idx + 1) % 2 ^ bit_size : ℕ) : ℤ)⟩ : NeutrosophicNumber)
      = r := congrArg Prod.fst h
  subst hr
  refine ⟨by rw [generate_random_eq]; rfl, Int.natCast_nonneg _, ?_,
    Int.natCast_nonneg _, ?_⟩
  · show ((rng.draws rng.idx % 2 ^ bit_size : ℕ) : ℤ) < 2 ^ bit_size
    exact_mod_cast Nat.mod_lt _ (pow_pos (by norm_num) bit_size)
  · show ((rng.draws (rng.idx + 1) % 2 ^ bit_size : ℕ) : ℤ) < 2 ^ bit_size
    exact_mod_cast Nat.mod_lt _ (pow_pos (by norm_num) bit_size)

/-- Witness for C9: a source whose raw draws are all `5`, at 3 bits. -/
theorem generate_random_in_range_witness :
    (generate_random_neutrosophic ⟨fun _ => 5, 0⟩ 3).isSome = true ∧
    0 ≤ (⟨5, 5⟩ : NeutrosophicNumber).a ∧
    (⟨5, 5⟩ : NeutrosophicNumber).a < 2 ^ 3 ∧
    0 ≤ (⟨5, 5⟩ : NeutrosophicNumber).b ∧
    (⟨5, 5⟩ : NeutrosophicNumber).b < 2 ^ 3 :=
  generate_random_in_range ⟨fun _ => 5, 0⟩ 3 ⟨5, 5⟩ ⟨fun _ => 5, 2⟩
    (by decide) rfl

/-- Claim C10: with admissible exponent components, `pow_mod` aborts (the
underlying `modpow` panics, embedded as `none`) exactly when `p.a = 0` or
`p.a + p.b = 0`, and returns normally otherwise. -/
theorem pow_mod_none_iff_degenerate (g x p : NeutrosophicNumber)
    (hxa : 0 ≤ x.a) (hxb : 0 ≤ x.b) :
    g.pow_mod x p = none ↔ (p.a = 0 ∨ p.a + p.b = 0) := by
  by_cases hpa : p.a = 0
  · simp [NeutrosophicNumber.pow_mod, modpow, hpa]
  · by_cases hps : p.a + p.b = 0
    · simp [NeutrosophicNumber.pow_mod, modpow, hxa, hpa, hps]
    · rw [pow_mod_eq_some g x p hxa (by omega) hpa hps]
      simp [hpa, hps]

/-- Witness for C10 at `g = 2+1I`, `x = 3+0I` and the degenerate modulus
`p = 0+5I`. -/
theorem pow_mod_none_iff_degenerate_witness :
    NeutrosophicNumber.pow_mod ⟨2, 1⟩ ⟨3, 0⟩ ⟨0, 5⟩ = none ↔
      ((0 : ℤ) = 0 ∨ (0 : ℤ) + 5 = 0) :=
  pow_mod_none_iff_degenerate ⟨2, 1⟩ ⟨3, 0⟩ ⟨0, 5⟩ (by decide) (by decide)

/-- Claim C7: addition is component-wise, commutative and associative, and
`(1+2I) + (3+4I) = (4+6I)`. -/
theorem add_componentwise_comm_assoc (x y z : NeutrosophicNumber) :
    x.add y = ⟨x.a + y.a, x.b + y.b⟩ ∧
    x.add y = y.add x ∧
    (x.add y).add z = x.add (y.add z) ∧
    NeutrosophicNumber.add ⟨1, 2⟩ ⟨3, 4⟩ = ⟨4, 6⟩ := by
  refine ⟨rfl, ?_, ?_, by decide⟩
  · simp only [NeutrosophicNumber.add, NeutrosophicNumber.mk.injEq]
    constructor <;> ring
  · simp only [NeutrosophicNumber.add, NeutrosophicNumber.mk.injEq]
    constructor <;> ring

/-- Claim C6: multiplication realises `ac + (ad+bc+bd)I`, is commutative, and
`(1+2I) * (3+4I) = (3+18I)`. -/
theorem mul_closed_form_comm (x y : NeutrosophicNumber) :
    x.mul y = ⟨x.a * y.a, x.a * y.b + x.b * y.a + x.b * y.b⟩ ∧
    x.mul y = y.mul x ∧
    NeutrosophicNumber.mul ⟨1, 2⟩ ⟨3, 4⟩ = ⟨3, 18⟩ := by
  refine ⟨rfl, ?_, by decide⟩
  simp only [NeutrosophicNumber.mul, NeutrosophicNumber.mk.injEq]
  constructor <;> ring

/-- Claim C8: `is_positive` holds exactly when `a > 0` and `a + b > 0`;
`1 + (-1)I` is not positive while `1 + 0I` is. -/
theorem is_positive_iff (n : NeutrosophicNumber) :
    (n.is_positive = true ↔ (0 < n.a ∧ 0 < n.a + n.b)) ∧
    NeutrosophicNumber.is_positive ⟨1, -1⟩ = false ∧
    NeutrosophicNumber.is_positive ⟨1, 0⟩ = true := by
  refine ⟨?_, by decide, by decide⟩
  simp [NeutrosophicNumber.is_positive]
